import Mathlib

/-!
Verification of the workspace-selector specification of insights-rbac-ui.

The repository's own TypeScript sources under scrutiny are:
  * `usePreviewFlag` (a feature-flag gate),
  * `groupNameValidated` / `groupDescriptionValidated` (form validators),
which are embedded directly from the source below.

The workspace tree builder (`build`), the selection store (`select`,
`clearSelection`, `toggleExpand`, `onTreeRebuilt`) and the data-source
fetch policy are described by the specification (sections 3-5, 8) but their
implementation files are not part of the sources available here; those
components are therefore modelled from the specification text, as flagged
in each doc comment.
-/

namespace Rbac

/-- Modelled from the spec: section 3 `WorkspaceRecord`
`{ id : string (unique, stable), name : string, parentId : string|null }`.
The `type` enum plays no role in any verified property and is omitted. -/
structure WorkspaceRecord where
  id : String
  name : String
  parentId : Option String
deriving DecidableEq, Repr

/-- Modelled from the spec: section 3 `WorkspaceNode`
`{ record : WorkspaceRecord, children : ordered sequence of WorkspaceNode }`. -/
inductive WorkspaceNode where
  | node (record : WorkspaceRecord) (children : List WorkspaceNode)

/-- Record held at the root of a node. -/
def WorkspaceNode.record : WorkspaceNode → WorkspaceRecord
  | .node r _ => r

/-- Children sequence of a node. -/
def WorkspaceNode.children : WorkspaceNode → List WorkspaceNode
  | .node _ cs => cs

/-- Modelled from the spec: the distinct label of the synthetic root
("a non-backend node introduced by the tree builder solely to anchor
otherwise-unparented records", "labeled distinctly from genuine roots"). -/
def syntheticRootLabel : String := "synthetic-root"

/-- Modelled from the spec: the single root returned by `build` — the
synthetic root node carrying its distinct label together with the ordered
forest of top-level workspace nodes. -/
structure WorkspaceTree where
  rootLabel : String
  children : List WorkspaceNode

/-- Modelled from the spec: section 7 error taxonomy, restricted to the only
error the tree builder itself can raise. -/
inductive BuildError where
  | dataIntegrityError
deriving DecidableEq, Repr

/-- Ids of a record list. -/
def idsOf (records : List WorkspaceRecord) : List String :=
  records.map (·.id)

/-- Look a record up by id (first match). -/
def findRec (records : List WorkspaceRecord) (i : String) : Option WorkspaceRecord :=
  records.find? (fun r => r.id == i)

/-- Resolve a record's parent: `none` both for genuine roots (null
`parentId`) and for orphans (a `parentId` that resolves to no record). -/
def parentOf (records : List WorkspaceRecord) (r : WorkspaceRecord) : Option WorkspaceRecord :=
  r.parentId.bind (findRec records)

/-- Modelled from the spec: children ordering "stable sort by name, ties
broken by id". -/
def recordLE (a b : WorkspaceRecord) : Bool :=
  decide (a.name < b.name ∨ (a.name = b.name ∧ a.id ≤ b.id))

/-- Modelled from the spec: the records whose parent is the record with id
`pid`, in deterministic order (sorted by name, then id). -/
def childRecords (records : List WorkspaceRecord) (pid : String) : List WorkspaceRecord :=
  (records.filter (fun r => r.parentId == some pid)).mergeSort recordLE

/-- Modelled from the spec: the records attached directly under the
synthetic root: genuine roots (null `parentId`) and orphans (unresolved
`parentId`), in deterministic order. -/
def topRecords (records : List WorkspaceRecord) : List WorkspaceRecord :=
  (records.filter (fun r => (parentOf records r).isNone)).mergeSort recordLE

/-- Modelled from the spec: recursive subtree construction. The fuel
argument bounds the depth explored; `build` passes `records.length`, which
suffices for every acyclic input. -/
def buildNode (records : List WorkspaceRecord) : Nat → WorkspaceRecord → WorkspaceNode
  | 0, r => .node r []
  | fuel + 1, r => .node r ((childRecords records r.id).map (buildNode records fuel))

/-- Whether the parent chain starting at `r` reaches a record without a
resolvable parent within the given number of steps. -/
def rootedB (records : List WorkspaceRecord) : Nat → WorkspaceRecord → Bool
  | 0, r => (parentOf records r).isNone
  | fuel + 1, r =>
    match parentOf records r with
    | none => true
    | some q => rootedB records fuel q

/-- Modelled from the spec: the cycle detection performed during tree build
("cyclic parent references — must be detected during tree build to avoid
infinite recursion"): every record's parent chain must terminate within
`records.length` steps, which fails exactly when the chain enters a cycle. -/
def acyclicB (records : List WorkspaceRecord) : Bool :=
  records.all (fun r => rootedB records records.length r)

/-- Modelled from the spec: `build(records) → WorkspaceNode (single root)`.
Cyclic parent references are detected and reported as a
`DataIntegrityError`; otherwise the single synthetic root anchors the
genuine roots and the orphaned records, and every node's children are
sorted by name with ties broken by id. -/
def build (records : List WorkspaceRecord) : Except BuildError WorkspaceTree :=
  if acyclicB records then
    .ok ⟨syntheticRootLabel, (topRecords records).map (buildNode records records.length)⟩
  else
    .error .dataIntegrityError

/-- Iterated parent resolution: follow `parentOf` exactly `k` times. -/
def parentIter (records : List WorkspaceRecord) : Nat → WorkspaceRecord → Option WorkspaceRecord
  | 0, r => some r
  | k + 1, r => (parentOf records r).bind (parentIter records k)

/-- Whether record `s` occurs in the subtree rooted at record `r`, exploring
at most the given depth, mirroring the recursion of `buildNode`. -/
def inSubtreeB (records : List WorkspaceRecord) : Nat → WorkspaceRecord → WorkspaceRecord → Bool
  | 0, s, r => s == r
  | fuel + 1, s, r => s == r || (childRecords records r.id).any (fun c => inSubtreeB records fuel s c)

/-- Decidable form of "every non-null parentId resolves to an id present in
the list". -/
def parentsResolveB (records : List WorkspaceRecord) : Bool :=
  records.all (fun r =>
    match r.parentId with
    | none => true
    | some p => (idsOf records).contains p)

/-- Well-formed record list: unique ids (spec section 3: "id : string
(unique, stable)"), every non-null parentId resolves to a present id, and
no parent-reference cycles. -/
def wellFormed (records : List WorkspaceRecord) : Prop :=
  (idsOf records).Nodup ∧ parentsResolveB records = true ∧ acyclicB records = true

/-- A record whose `parentId` is set but does not resolve to any record of
the input. -/
def isOrphan (records : List WorkspaceRecord) (r : WorkspaceRecord) : Bool :=
  match r.parentId with
  | none => false
  | some p => (findRec records p).isNone

/-- A parent-reference cycle in the input: some record is its own strict
iterated parent. -/
def hasCycle (records : List WorkspaceRecord) : Prop :=
  ∃ r ∈ records, ∃ k, 1 ≤ k ∧ parentIter records k r = some r

/-- All records of a subtree, root first. -/
def flattenNode : WorkspaceNode → List WorkspaceRecord
  | .node r cs => r :: (cs.attach.map (fun c => flattenNode c.1)).flatten
decreasing_by
  have := List.sizeOf_lt_of_mem c.2
  simp only [WorkspaceNode.node.sizeOf_spec]
  omega

/-- All records of a forest. -/
def flattenForest (ts : List WorkspaceNode) : List WorkspaceRecord :=
  ts.flatMap flattenNode

/-- Every node of the subtree has its children sequence sorted by name with
ties broken by id. -/
def nodeSorted : WorkspaceNode → Prop
  | .node _ cs =>
    (cs.map WorkspaceNode.record).Pairwise (fun a b => recordLE a b = true) ∧
      ∀ c ∈ cs.attach, nodeSorted c.1
decreasing_by
  have := List.sizeOf_lt_of_mem c.2
  simp only [WorkspaceNode.node.sizeOf_spec]
  omega

/-- Every node of the built tree, the synthetic root included, has its
children sequence sorted by name with ties broken by id. -/
def treeSorted (t : WorkspaceTree) : Prop :=
  (t.children.map WorkspaceNode.record).Pairwise (fun a b => recordLE a b = true) ∧
    ∀ c ∈ t.children, nodeSorted c

/-- Ids present in the tree. -/
def treeIds (t : WorkspaceTree) : List String :=
  (flattenForest t.children).map (·.id)

/-- Modelled from the spec: section 3 `SelectionState`
`{ selectedId : string|null, expandedIds : set of string }`. -/
structure SelectionState where
  selectedId : Option String
  expandedIds : Finset String
deriving DecidableEq

/-- Modelled from the spec: `select(id)` is valid only if the id exists in
the current tree and then sets `selectedId := id`; calling it with an
unknown id is a caller error handled as a consistent no-op. -/
def select (tree : WorkspaceTree) (st : SelectionState) (i : String) : SelectionState :=
  if i ∈ treeIds tree then { st with selectedId := some i } else st

/-- Modelled from the spec: `clearSelection()` transitions to no-selection. -/
def clearSelection (st : SelectionState) : SelectionState :=
  { st with selectedId := none }

/-- Modelled from the spec: `toggleExpand(id)` flips membership of the id in
`expandedIds` and does not affect `selectedId`. -/
def toggleExpand (st : SelectionState) (i : String) : SelectionState :=
  { st with
    expandedIds := if i ∈ st.expandedIds then st.expandedIds.erase i else insert i st.expandedIds }

/-- Modelled from the spec: `onTreeRebuilt(newTree)` clears the selection if
the selected id is no longer present in the new tree and filters
`expandedIds` to the ids still present. -/
def onTreeRebuilt (st : SelectionState) (newTree : WorkspaceTree) : SelectionState :=
  { selectedId :=
      match st.selectedId with
      | some i => if i ∈ treeIds newTree then some i else none
      | none => none,
    expandedIds := st.expandedIds.filter (fun i => i ∈ treeIds newTree) }

/-- Modelled from the spec: the events a selector widget instance can
process — the three store operations plus a tree rebuild after a fetch. -/
inductive SelectorEvent where
  | select (i : String)
  | clearSelection
  | toggleExpand (i : String)
  | treeRebuilt (t : WorkspaceTree)

/-- Combined state of one widget instance: the current tree and the
selection state bound to it. -/
structure SelectorState where
  tree : WorkspaceTree
  selection : SelectionState

/-- Modelled from the spec: the transition function of the selection store;
the tree changes only through `onTreeRebuilt`. -/
def stepSelector (s : SelectorState) : SelectorEvent → SelectorState
  | .select i => ⟨s.tree, select s.tree s.selection i⟩
  | .clearSelection => ⟨s.tree, clearSelection s.selection⟩
  | .toggleExpand i => ⟨s.tree, toggleExpand s.selection i⟩
  | .treeRebuilt t => ⟨t, onTreeRebuilt s.selection t⟩

/-- Run a sequence of events from a state. -/
def runSelector (s : SelectorState) (es : List SelectorEvent) : SelectorState :=
  es.foldl stepSelector s

/-- Fresh widget state over a given tree: nothing selected, nothing
expanded. -/
def initSelector (t : WorkspaceTree) : SelectorState :=
  ⟨t, ⟨none, ∅⟩⟩

/-- Invariant of the selection store: a non-null `selectedId` is the id of a
node present in the current tree. -/
def selectionInv (s : SelectorState) : Prop :=
  ∀ i, s.selection.selectedId = some i → i ∈ treeIds s.tree

/-- Modelled from the spec: section 5 data-source state — the id the next
fetch will receive, the id of the most recently issued (current) fetch, and
the currently displayed data. -/
structure FetchState where
  nextRequestId : Nat
  currentRequestId : Option Nat
  displayed : Option (List WorkspaceRecord)
deriving DecidableEq, Repr

/-- Modelled from the spec: issuing a fetch marks it as the current
(last-issued) request and returns its request id. -/
def issueFetch (s : FetchState) : FetchState × Nat :=
  (⟨s.nextRequestId + 1, some s.nextRequestId, s.displayed⟩, s.nextRequestId)

/-- Modelled from the spec: last-request-wins — a resolving response updates
the displayed data only when it belongs to the most recently issued fetch;
a stale response is ignored. -/
def receiveResponse (s : FetchState) (requestId : Nat) (data : List WorkspaceRecord) : FetchState :=
  if s.currentRequestId = some requestId then
    ⟨s.nextRequestId, s.currentRequestId, some data⟩
  else
    s

/-- Embedded from src/unnamed/part_000: `usePreviewFlag`. The Chrome
environment is the pair of `getEnvironment()` and `isBeta()`; the feature
flag service is the function `flags` from flag names to values, so that
`useFlag flag` reads `flags flag`. -/
def usePreviewFlag (environment : String) (isBeta : Bool) (flags : String → Bool) (flag : String) : Bool :=
  let flagValue := flags flag
  if environment == "prod" && isBeta == false then
    false
  else
    flagValue

/-- Truthiness of an optional string, as JavaScript evaluates the
`groupNameError` value: `undefined` and the empty string are falsy. -/
def truthyStr : Option String → Bool
  | none => false
  | some s => s != ""

/-- Embedded from src/scripts/e2e.js (SetName component): the JavaScript
comparison `x?.length > 150` — `undefined > 150` is false. -/
def optLenGt150 : Option String → Bool
  | none => false
  | some s => 150 < s.length

/-- Embedded from src/scripts/e2e.js (SetName component):
`groupName === undefined || groupNameError || groupName?.length > 150 ? 'error' : 'default'`. -/
def groupNameValidated (groupName : Option String) (groupNameError : Option String) : String :=
  if groupName == none || truthyStr groupNameError || optLenGt150 groupName then
    "error"
  else
    "default"

/-- Embedded from src/scripts/e2e.js (SetName component):
`groupDescription?.length > 150 ? 'error' : 'default'`. -/
def groupDescriptionValidated (groupDescription : Option String) : String :=
  if optLenGt150 groupDescription then "error" else "default"

/-- Example records from the spec's end-to-end scenario: a root and one
child. -/
def exampleRecords : List WorkspaceRecord :=
  [⟨"1", "Root", none⟩, ⟨"2", "Child", some "1"⟩]

/-- Example records from the spec's orphan scenario: a normal root together
with a record whose parent id resolves to nothing. -/
def exampleOrphanRecords : List WorkspaceRecord :=
  [⟨"1", "Root", none⟩, ⟨"3", "Orphan", some "missing"⟩]

/-- Example records from the spec's cyclic scenario:
`{id:"a",parent_id:"b"}, {id:"b",parent_id:"a"}`. -/
def exampleCycleRecords : List WorkspaceRecord :=
  [⟨"a", "a", some "b"⟩, ⟨"b", "b", some "a"⟩]

/-- A concrete one-node tree used to exercise the selection store. -/
def exampleTree : WorkspaceTree :=
  ⟨syntheticRootLabel, [.node ⟨"1", "Root", none⟩ []]⟩

/-- A concrete tree that does not contain the id "1". -/
def exampleTreeNoOne : WorkspaceTree :=
  ⟨syntheticRootLabel, [.node ⟨"9", "Other", none⟩ []]⟩

/-- The empty selection state. -/
def emptySelection : SelectionState :=
  ⟨none, ∅⟩

/-! ### Helper lemmas -/

theorem flattenNode_node (r : WorkspaceRecord) (cs : List WorkspaceNode) :
    flattenNode (.node r cs) = r :: (cs.map flattenNode).flatten := by
  rw [flattenNode]
  simp [List.attach_map_coe]

theorem nodeSorted_node (r : WorkspaceRecord) (cs : List WorkspaceNode) :
    nodeSorted (.node r cs) ↔
      ((cs.map WorkspaceNode.record).Pairwise (fun a b => recordLE a b = true) ∧
        ∀ c ∈ cs, nodeSorted c) := by
  rw [nodeSorted]
  constructor
  · rintro ⟨h1, h2⟩
    exact ⟨h1, fun c hc => h2 ⟨c, hc⟩ (List.mem_attach _ _)⟩
  · rintro ⟨h1, h2⟩
    exact ⟨h1, fun c _ => h2 c.1 c.2⟩

theorem recordLE_trans : ∀ (a b c : WorkspaceRecord),
    recordLE a b = true → recordLE b c = true → recordLE a c = true := by
  intro a b c h1 h2
  simp only [recordLE, decide_eq_true_eq] at h1 h2 ⊢
  rcases h1 with h1 | ⟨h1, h1'⟩ <;> rcases h2 with h2 | ⟨h2, h2'⟩
  · exact Or.inl (lt_trans h1 h2)
  · exact Or.inl (h2 ▸ h1)
  · exact Or.inl (h1 ▸ h2)
  · exact Or.inr ⟨h1.trans h2, le_trans h1' h2'⟩

theorem recordLE_total : ∀ (a b : WorkspaceRecord),
    (recordLE a b || recordLE b a) = true := by
  intro a b
  simp only [recordLE, Bool.or_eq_true, decide_eq_true_eq]
  rcases lt_trichotomy a.name b.name with h | h | h
  · exact Or.inl (Or.inl h)
  · rcases le_total a.id b.id with h' | h'
    · exact Or.inl (Or.inr ⟨h, h'⟩)
    · exact Or.inr (Or.inr ⟨h.symm, h'⟩)
  · exact Or.inr (Or.inl h)

theorem findRec_mem {records : List WorkspaceRecord} {p : String} {q : WorkspaceRecord}
    (h : findRec records p = some q) : q ∈ records ∧ q.id = p := by
  refine ⟨List.mem_of_find?_eq_some h, ?_⟩
  have := List.find?_some h
  simpa using this

theorem findRec_self {records : List WorkspaceRecord} (hnd : (idsOf records).Nodup)
    {r : WorkspaceRecord} (hr : r ∈ records) : findRec records r.id = some r := by
  induction records with
  | nil => cases hr
  | cons h tl ih =>
    rw [idsOf, List.map_cons, List.nodup_cons] at hnd
    rcases List.mem_cons.1 hr with rfl | hr'
    · unfold findRec
      rw [List.find?_cons_of_pos _ (by simp)]
    · unfold findRec
      rw [List.find?_cons_of_neg]
      · exact ih hnd.2 hr'
      · simp only [beq_iff_eq]
        intro hid
        exact hnd.1 (hid ▸ List.mem_map_of_mem (·.id) hr')

theorem parentOf_mem {records : List WorkspaceRecord} {s q : WorkspaceRecord}
    (h : parentOf records s = some q) : q ∈ records := by
  unfold parentOf at h
  cases hp : s.parentId with
  | none => rw [hp] at h; cases h
  | some p =>
    rw [hp] at h
    exact (findRec_mem h).1

theorem mem_childRecords {records : List WorkspaceRecord} {pid : String} {c : WorkspaceRecord} :
    c ∈ childRecords records pid ↔ c ∈ records ∧ c.parentId = some pid := by
  unfold childRecords
  rw [List.mem_mergeSort, List.mem_filter]
  simp

theorem childRecords_parentOf {records : List WorkspaceRecord}
    (hnd : (idsOf records).Nodup) {r c : WorkspaceRecord} (hr : r ∈ records)
    (hc : c ∈ childRecords records r.id) : parentOf records c = some r := by
  rcases mem_childRecords.1 hc with ⟨_, hp⟩
  unfold parentOf
  rw [hp]
  simp [findRec_self hnd hr]

theorem parentOf_childRecords {records : List WorkspaceRecord}
    {s q : WorkspaceRecord} (hs : s ∈ records)
    (h : parentOf records s = some q) : s ∈ childRecords records q.id := by
  unfold parentOf at h
  cases hp : s.parentId with
  | none => rw [hp] at h; cases h
  | some p =>
    rw [hp] at h
    exact mem_childRecords.2 ⟨hs, by rw [hp, (findRec_mem h).2]⟩

theorem parentIter_add (records : List WorkspaceRecord) (a b : Nat) (r : WorkspaceRecord) :
    parentIter records (a + b) r = (parentIter records a r).bind (parentIter records b) := by
  induction a generalizing r with
  | zero => simp [parentIter]
  | succ a ih =>
    rw [Nat.add_right_comm]
    show (parentOf records r).bind (parentIter records (a + b)) = _
    cases hq : parentOf records r with
    | none => simp [parentIter, hq]
    | some q => simp [parentIter, hq, ih q]

theorem parentIter_one (records : List WorkspaceRecord) (r : WorkspaceRecord) :
    parentIter records 1 r = parentOf records r := by
  cases h : parentOf records r <;> simp [parentIter, h]

theorem parentIter_succ_right (records : List WorkspaceRecord) (k : Nat) (r : WorkspaceRecord) :
    parentIter records (k + 1) r = (parentIter records k r).bind (parentOf records) := by
  rw [parentIter_add records k 1 r]
  cases parentIter records k r with
  | none => rfl
  | some q => simp [parentIter_one]

theorem parentIter_mem {records : List WorkspaceRecord} {k : Nat} {r t : WorkspaceRecord}
    (hk : 1 ≤ k) (h : parentIter records k r = some t) : t ∈ records := by
  obtain ⟨m, rfl⟩ : ∃ m, k = m + 1 := ⟨k - 1, by omega⟩
  rw [parentIter_succ_right] at h
  cases hq : parentIter records m r with
  | none => rw [hq] at h; cases h
  | some q =>
    rw [hq] at h
    exact parentOf_mem h

theorem rootedB_no_cycle {records : List WorkspaceRecord} :
    ∀ (n : Nat) (r : WorkspaceRecord) (k : Nat), rootedB records n r = true → 1 ≤ k →
      parentIter records k r = some r → False := by
  intro n
  induction n with
  | zero =>
    intro r k h hk hcyc
    obtain ⟨m, rfl⟩ : ∃ m, k = m + 1 := ⟨k - 1, by omega⟩
    show False
    rw [show parentIter records (m + 1) r = (parentOf records r).bind (parentIter records m) from rfl] at hcyc
    cases hq : parentOf records r with
    | none => rw [hq] at hcyc; cases hcyc
    | some q => simp [rootedB, hq] at h
  | succ n ih =>
    intro r k h hk hcyc
    obtain ⟨m, rfl⟩ : ∃ m, k = m + 1 := ⟨k - 1, by omega⟩
    rw [show parentIter records (m + 1) r = (parentOf records r).bind (parentIter records m) from rfl] at hcyc
    cases hq : parentOf records r with
    | none => rw [hq] at hcyc; cases hcyc
    | some q =>
      rw [hq] at hcyc
      have h' : rootedB records n q = true := by simpa [rootedB, hq] using h
      have hcq : parentIter records (m + 1) q = some q := by
        rw [parentIter_succ_right]
        rw [show Option.bind (some q) (parentIter records m) = parentIter records m q from rfl] at hcyc
        rw [hcyc]
        simp [hq]
      exact ih q (m + 1) h' (by omega) hcq

theorem rootedB_terminal {records : List WorkspaceRecord} :
    ∀ (n : Nat) (r : WorkspaceRecord), rootedB records n r = true →
      ∃ k, k ≤ n ∧ ∃ t, parentIter records k r = some t ∧ parentOf records t = none := by
  intro n
  induction n with
  | zero =>
    intro r h
    simp only [rootedB, Option.isNone_iff_eq_none] at h
    exact ⟨0, Nat.le_refl 0, r, rfl, h⟩
  | succ n ih =>
    intro r h
    cases hq : parentOf records r with
    | none => exact ⟨0, Nat.zero_le _, r, rfl, hq⟩
    | some q =>
      have h' : rootedB records n q = true := by simpa [rootedB, hq] using h
      obtain ⟨k, hk, t, ht, htn⟩ := ih q h'
      refine ⟨k + 1, by omega, t, ?_, htn⟩
      show (parentOf records r).bind (parentIter records k) = some t
      rw [hq]
      exact ht

theorem inSubtreeB_refl (records : List WorkspaceRecord) :
    ∀ (n : Nat) (s : WorkspaceRecord), inSubtreeB records n s s = true := by
  intro n s
  cases n <;> simp [inSubtreeB]

theorem inSubtreeB_succ_iff (records : List WorkspaceRecord) (n : Nat)
    (s t : WorkspaceRecord) :
    inSubtreeB records (n + 1) s t = true ↔
      s = t ∨ ∃ c ∈ childRecords records t.id, inSubtreeB records n s c = true := by
  simp only [inSubtreeB, Bool.or_eq_true, beq_iff_eq, List.any_eq_true]

theorem inSubtreeB_pushDown {records : List WorkspaceRecord} :
    ∀ (k : Nat) (q t s : WorkspaceRecord), inSubtreeB records k q t = true →
      parentOf records s = some q → s ∈ records → inSubtreeB records (k + 1) s t = true := by
  intro k
  induction k with
  | zero =>
    intro q t s hqt hps hs
    have hqt' : q = t := by simpa [inSubtreeB] using hqt
    subst hqt'
    have hmem : s ∈ childRecords records q.id := parentOf_childRecords hs hps
    simp only [inSubtreeB, Bool.or_eq_true, List.any_eq_true]
    exact Or.inr ⟨s, hmem, by simp⟩
  | succ k ih =>
    intro q t s hqt hps hs
    rw [inSubtreeB_succ_iff] at hqt
    rcases hqt with rfl | ⟨c, hc, hqc⟩
    · have hmem : s ∈ childRecords records q.id := parentOf_childRecords hs hps
      exact (inSubtreeB_succ_iff records (k + 1) s q).2
        (Or.inr ⟨s, hmem, inSubtreeB_refl records _ s⟩)
    · exact (inSubtreeB_succ_iff records (k + 1) s t).2
        (Or.inr ⟨c, hc, ih q c s hqc hps hs⟩)

theorem parentIter_inSubtreeB {records : List WorkspaceRecord} :
    ∀ (k : Nat) (s t : WorkspaceRecord), parentIter records k s = some t →
      s ∈ records → inSubtreeB records k s t = true := by
  intro k
  induction k with
  | zero =>
    intro s t h hs
    have : s = t := by simpa [parentIter] using h
    subst this
    exact inSubtreeB_refl records 0 s
  | succ k ih =>
    intro s t h hs
    rw [show parentIter records (k + 1) s = (parentOf records s).bind (parentIter records k) from rfl] at h
    cases hq : parentOf records s with
    | none => rw [hq] at h; cases h
    | some q =>
      rw [hq] at h
      have hq' : q ∈ records := parentOf_mem hq
      exact inSubtreeB_pushDown k q t s (ih q t h hq') hq hs

theorem inSubtreeB_succ (records : List WorkspaceRecord) :
    ∀ (n : Nat) (s t : WorkspaceRecord), inSubtreeB records n s t = true →
      inSubtreeB records (n + 1) s t = true := by
  intro n
  induction n with
  | zero =>
    intro s t h
    have : s = t := by simpa [inSubtreeB] using h
    subst this
    exact inSubtreeB_refl records 1 s
  | succ n ih =>
    intro s t h
    rw [inSubtreeB_succ_iff] at h
    rcases h with rfl | ⟨c, hc, hsc⟩
    · exact inSubtreeB_refl records _ s
    · exact (inSubtreeB_succ_iff records (n + 1) s t).2 (Or.inr ⟨c, hc, ih s c hsc⟩)

theorem inSubtreeB_mono {records : List WorkspaceRecord} {m n : Nat}
    {s t : WorkspaceRecord} (hmn : m ≤ n) (h : inSubtreeB records m s t = true) :
    inSubtreeB records n s t = true := by
  obtain ⟨d, rfl⟩ := Nat.exists_eq_add_of_le hmn
  clear hmn
  induction d with
  | zero => exact h
  | succ d ih => exact inSubtreeB_succ records (m + d) s t ih

theorem inSubtreeB_parentIter {records : List WorkspaceRecord}
    (hnd : (idsOf records).Nodup) :
    ∀ (n : Nat) (s t : WorkspaceRecord), inSubtreeB records n s t = true → t ∈ records →
      ∃ k, k ≤ n ∧ parentIter records k s = some t := by
  intro n
  induction n with
  | zero =>
    intro s t h _
    have : s = t := by simpa [inSubtreeB] using h
    exact ⟨0, Nat.le_refl 0, by rw [this]; rfl⟩
  | succ n ih =>
    intro s t h ht
    rw [inSubtreeB_succ_iff] at h
    rcases h with rfl | ⟨c, hc, hsc⟩
    · exact ⟨0, Nat.zero_le _, rfl⟩
    · obtain ⟨k, hk, hks⟩ := ih s c hsc (mem_childRecords.1 hc).1
      refine ⟨k + 1, by omega, ?_⟩
      rw [parentIter_succ_right, hks]
      show parentOf records c = some t
      exact childRecords_parentOf hnd ht hc

theorem filter_or_perm {α : Type} (l : List α) (p q : α → Bool)
    (hdisj : ∀ s ∈ l, ¬(p s = true ∧ q s = true)) :
    (l.filter (fun s => p s || q s)).Perm (l.filter p ++ l.filter q) := by
  induction l with
  | nil => simp
  | cons a tl ih =>
    have ihtl := ih (fun s hs => hdisj s (List.mem_cons_of_mem _ hs))
    by_cases hp : p a = true
    · have hq : q a = false := by
        cases hqv : q a
        · rfl
        · exact absurd ⟨hp, hqv⟩ (hdisj a (List.mem_cons_self a tl))
      simp only [List.filter_cons, hp, hq, Bool.or_false, Bool.true_or, if_pos]
      exact ihtl.cons a
    · have hp' : p a = false := by cases hpv : p a
        <;> first | rfl | exact absurd hpv hp
      by_cases hq : q a = true
      · simp only [List.filter_cons, hp', hq, Bool.false_or, if_pos]
        exact (ihtl.cons a).trans List.perm_middle.symm
      · have hq' : q a = false := by cases hqv : q a
          <;> first | rfl | exact absurd hqv hq
        simp only [List.filter_cons, hp', hq', Bool.or_self, if_neg, Bool.false_eq_true,
          not_false_eq_true]
        exact ihtl

theorem filter_any_perm {α β : Type} (l : List α) (P : β → α → Bool) :
    ∀ cs : List β,
      cs.Pairwise (fun c c' => ∀ s ∈ l, ¬(P c s = true ∧ P c' s = true)) →
      (l.filter (fun s => cs.any (fun c => P c s))).Perm
        (cs.flatMap (fun c => l.filter (P c))) := by
  intro cs
  induction cs with
  | nil => simp
  | cons c cs ih =>
    intro hpw
    rw [List.pairwise_cons] at hpw
    obtain ⟨hhead, htail⟩ := hpw
    have h1 : (l.filter (fun s => P c s || cs.any (fun c' => P c' s))).Perm
        (l.filter (P c) ++ l.filter (fun s => cs.any (fun c' => P c' s))) := by
      apply filter_or_perm
      rintro s hs ⟨hps, hany⟩
      rw [List.any_eq_true] at hany
      obtain ⟨c', hc', hpc'⟩ := hany
      exact hhead c' hc' s hs ⟨hps, hpc'⟩
    have h2 := ih htail
    rw [List.flatMap_cons]
    have h0 : l.filter (fun s => (c :: cs).any (fun c' => P c' s))
        = l.filter (fun s => P c s || cs.any (fun c' => P c' s)) := by
      simp only [List.any_cons]
    rw [h0]
    exact h1.trans ((List.Perm.refl _).append h2)

theorem filter_beq_self {α : Type} [DecidableEq α] :
    ∀ l : List α, l.Nodup → ∀ a ∈ l, l.filter (fun s => s == a) = [a] := by
  intro l
  induction l with
  | nil => intro _ a ha; cases ha
  | cons b tl ih =>
    intro hnd a ha
    rw [List.nodup_cons] at hnd
    rcases List.mem_cons.1 ha with rfl | ha'
    · simp only [List.filter_cons, beq_self_eq_true, if_pos]
      have : tl.filter (fun s => s == a) = [] := by
        rw [List.filter_eq_nil_iff]
        intro x hx
        simp only [beq_iff_eq]
        intro hxa
        exact hnd.1 (hxa ▸ hx)
      rw [this]
    · have hba : (b == a) = false := by
        simp only [beq_eq_false_iff_ne, ne_eq]
        intro hba
        exact hnd.1 (hba ▸ ha')
      simp only [List.filter_cons, hba, Bool.false_eq_true, if_neg, not_false_eq_true]
      exact ih hnd.2 a ha'

theorem records_nodup {records : List WorkspaceRecord}
    (hnd : (idsOf records).Nodup) : records.Nodup := by
  have h : (records.map (·.id)).Nodup := hnd
  exact List.Nodup.of_map (·.id) h

theorem childRecords_nodup {records : List WorkspaceRecord}
    (hnd : (idsOf records).Nodup) (pid : String) : (childRecords records pid).Nodup :=
  ((List.mergeSort_perm _ recordLE).nodup_iff).2 ((records_nodup hnd).filter _)

theorem topRecords_nodup {records : List WorkspaceRecord}
    (hnd : (idsOf records).Nodup) : (topRecords records).Nodup :=
  ((List.mergeSort_perm _ recordLE).nodup_iff).2 ((records_nodup hnd).filter _)

theorem mem_topRecords {records : List WorkspaceRecord} {t : WorkspaceRecord} :
    t ∈ topRecords records ↔ t ∈ records ∧ parentOf records t = none := by
  unfold topRecords
  rw [List.mem_mergeSort, List.mem_filter]
  simp [Option.isNone_iff_eq_none]

theorem child_subtree_not_self {records : List WorkspaceRecord}
    (hnd : (idsOf records).Nodup)
    (hacyc : ∀ x ∈ records, rootedB records records.length x = true)
    {r c : WorkspaceRecord} (hr : r ∈ records) (hc : c ∈ childRecords records r.id)
    {f : Nat} (h : inSubtreeB records f r c = true) : False := by
  obtain ⟨k, _, hkc⟩ :=
    inSubtreeB_parentIter hnd f r c h (mem_childRecords.1 hc).1
  have hcyc : parentIter records (k + 1) r = some r := by
    rw [parentIter_succ_right, hkc]
    show parentOf records c = some r
    exact childRecords_parentOf hnd hr hc
  exact rootedB_no_cycle records.length r (k + 1) (hacyc r hr) (by omega) hcyc

theorem sibling_subtrees_disjoint_lt {records : List WorkspaceRecord}
    (hnd : (idsOf records).Nodup)
    (hacyc : ∀ x ∈ records, rootedB records records.length x = true)
    {r c c' : WorkspaceRecord} (hr : r ∈ records)
    (hc : c ∈ childRecords records r.id) (hc' : c' ∈ childRecords records r.id)
    {s : WorkspaceRecord} {k j : Nat} (hkj : k < j)
    (hks : parentIter records k s = some c) (hjs : parentIter records j s = some c') :
    False := by
  have hsplit := parentIter_add records k (j - k) s
  rw [Nat.add_sub_cancel' (Nat.le_of_lt hkj)] at hsplit
  rw [hsplit, hks] at hjs
  obtain ⟨m, hm⟩ : ∃ m, j - k = m + 1 := ⟨j - k - 1, by omega⟩
  rw [hm] at hjs
  rw [show Option.bind (some c) (parentIter records (m + 1)) =
    parentIter records (m + 1) c from rfl] at hjs
  rw [show parentIter records (m + 1) c =
    (parentOf records c).bind (parentIter records m) from rfl] at hjs
  rw [childRecords_parentOf hnd hr hc] at hjs
  rw [show Option.bind (some r) (parentIter records m) =
    parentIter records m r from rfl] at hjs
  have hcyc : parentIter records (m + 1) r = some r := by
    rw [parentIter_succ_right, hjs]
    show parentOf records c' = some r
    exact childRecords_parentOf hnd hr hc'
  exact rootedB_no_cycle records.length r (m + 1) (hacyc r hr) (by omega) hcyc

theorem sibling_subtrees_disjoint {records : List WorkspaceRecord}
    (hnd : (idsOf records).Nodup)
    (hacyc : ∀ x ∈ records, rootedB records records.length x = true)
    {r c c' : WorkspaceRecord} (hr : r ∈ records)
    (hc : c ∈ childRecords records r.id) (hc' : c' ∈ childRecords records r.id)
    (hne : c ≠ c') {f f' : Nat} {s : WorkspaceRecord}
    (h1 : inSubtreeB records f s c = true) (h2 : inSubtreeB records f' s c' = true) :
    False := by
  obtain ⟨k, _, hks⟩ := inSubtreeB_parentIter hnd f s c h1 (mem_childRecords.1 hc).1
  obtain ⟨j, _, hjs⟩ := inSubtreeB_parentIter hnd f' s c' h2 (mem_childRecords.1 hc').1
  rcases Nat.lt_trichotomy k j with hkj | rfl | hkj
  · exact sibling_subtrees_disjoint_lt hnd hacyc hr hc hc' hkj hks hjs
  · rw [hks] at hjs
    exact hne (Option.some_injective _ hjs)
  · exact sibling_subtrees_disjoint_lt hnd hacyc hr hc' hc hkj hjs hks

theorem flattenNode_buildNode_succ (records : List WorkspaceRecord)
    (fuel : Nat) (r : WorkspaceRecord) :
    flattenNode (buildNode records (fuel + 1) r) =
      r :: (childRecords records r.id).flatMap (fun c => flattenNode (buildNode records fuel c)) := by
  show flattenNode (.node r ((childRecords records r.id).map (buildNode records fuel))) = _
  rw [flattenNode_node, List.map_map]
  rfl

theorem flatten_buildNode_perm {records : List WorkspaceRecord}
    (hnd : (idsOf records).Nodup)
    (hacyc : ∀ x ∈ records, rootedB records records.length x = true) :
    ∀ (fuel : Nat) (r : WorkspaceRecord), r ∈ records →
      (flattenNode (buildNode records fuel r)).Perm
        (records.filter (fun s => inSubtreeB records fuel s r)) := by
  intro fuel
  induction fuel with
  | zero =>
    intro r hr
    have h1 : flattenNode (buildNode records 0 r) = [r] := by
      show flattenNode (.node r []) = [r]
      rw [flattenNode_node]
      rfl
    have h2 : records.filter (fun s => inSubtreeB records 0 s r) = [r] := by
      have := filter_beq_self records (records_nodup hnd) r hr
      simpa [inSubtreeB] using this
    rw [h1, h2]
  | succ fuel ih =>
    intro r hr
    rw [flattenNode_buildNode_succ]
    have hsplit : (records.filter (fun s => inSubtreeB records (fuel + 1) s r)).Perm
        (records.filter (fun s => s == r) ++
          records.filter (fun s => (childRecords records r.id).any
            (fun c => inSubtreeB records fuel s c))) := by
      apply filter_or_perm
      rintro s hs ⟨h1, h2⟩
      rw [beq_iff_eq] at h1
      subst h1
      rw [List.any_eq_true] at h2
      obtain ⟨c, hcmem, hcs⟩ := h2
      exact child_subtree_not_self hnd hacyc hr hcmem hcs
    have hone : records.filter (fun s => s == r) = [r] :=
      filter_beq_self records (records_nodup hnd) r hr
    have hpart : (records.filter (fun s => (childRecords records r.id).any
          (fun c => inSubtreeB records fuel s c))).Perm
        ((childRecords records r.id).flatMap
          (fun c => records.filter (fun s => inSubtreeB records fuel s c))) := by
      apply filter_any_perm
      have hchnd : (childRecords records r.id).Nodup := childRecords_nodup hnd _
      refine List.Pairwise.imp_of_mem ?_ hchnd
      intro c c' hcm hcm' hne
      rintro s hs ⟨h1, h2⟩
      exact sibling_subtrees_disjoint hnd hacyc hr hcm hcm' hne h1 h2
    have hrec : ((childRecords records r.id).flatMap
          (fun c => records.filter (fun s => inSubtreeB records fuel s c))).Perm
        ((childRecords records r.id).flatMap
          (fun c => flattenNode (buildNode records fuel c))) := by
      apply List.Perm.flatMap_left
      intro c hcm
      exact (ih c (mem_childRecords.1 hcm).1).symm
    have hassemble : (records.filter (fun s => inSubtreeB records (fuel + 1) s r)).Perm
        (r :: (childRecords records r.id).flatMap
          (fun c => flattenNode (buildNode records fuel c))) := by
      refine hsplit.trans ?_
      rw [hone]
      exact (List.Perm.refl [r]).append (hpart.trans hrec)
    exact hassemble.symm

theorem flattenForest_build_perm {records : List WorkspaceRecord}
    (hnd : (idsOf records).Nodup) (hacycB : acyclicB records = true) :
    (flattenForest ((topRecords records).map
      (buildNode records records.length))).Perm records := by
  have hacyc : ∀ x ∈ records, rootedB records records.length x = true := by
    intro x hx
    exact List.all_eq_true.1 hacycB x hx
  have hstep1 : flattenForest ((topRecords records).map (buildNode records records.length)) =
      (topRecords records).flatMap (fun t => flattenNode (buildNode records records.length t)) := by
    unfold flattenForest
    rw [List.flatMap_map]
  rw [hstep1]
  have hstep2 : ((topRecords records).flatMap
        (fun t => flattenNode (buildNode records records.length t))).Perm
      ((topRecords records).flatMap
        (fun t => records.filter (fun s => inSubtreeB records records.length s t))) := by
    apply List.Perm.flatMap_left
    intro t ht
    exact flatten_buildNode_perm hnd hacyc records.length t (mem_topRecords.1 ht).1
  have htopdisj : (topRecords records).Pairwise
      (fun t t' => ∀ s ∈ records,
        ¬(inSubtreeB records records.length s t = true ∧
          inSubtreeB records records.length s t' = true)) := by
    refine List.Pairwise.imp_of_mem ?_ (topRecords_nodup hnd)
    intro t t' htm htm' hne
    rintro s hs ⟨h1, h2⟩
    obtain ⟨k, _, hks⟩ :=
      inSubtreeB_parentIter hnd records.length s t h1 (mem_topRecords.1 htm).1
    obtain ⟨j, _, hjs⟩ :=
      inSubtreeB_parentIter hnd records.length s t' h2 (mem_topRecords.1 htm').1
    have hlt : ∀ {a b : WorkspaceRecord} {ka kb : Nat}, ka < kb →
        a ∈ topRecords records → parentIter records ka s = some a →
        parentIter records kb s = some b → False := by
      intro a b ka kb hab ham hka hkb
      have hsplitIter := parentIter_add records ka (kb - ka) s
      rw [Nat.add_sub_cancel' (Nat.le_of_lt hab)] at hsplitIter
      rw [hsplitIter, hka] at hkb
      obtain ⟨m, hm⟩ : ∃ m, kb - ka = m + 1 := ⟨kb - ka - 1, by omega⟩
      rw [hm] at hkb
      rw [show Option.bind (some a) (parentIter records (m + 1)) =
        parentIter records (m + 1) a from rfl] at hkb
      rw [show parentIter records (m + 1) a =
        (parentOf records a).bind (parentIter records m) from rfl] at hkb
      rw [(mem_topRecords.1 ham).2] at hkb
      cases hkb
    rcases Nat.lt_trichotomy k j with hkj | rfl | hkj
    · exact hlt hkj htm hks hjs
    · rw [hks] at hjs
      exact hne (Option.some_injective _ hjs)
    · exact hlt hkj htm' hjs hks
  have hstep3 : (records.filter (fun s => (topRecords records).any
        (fun t => inSubtreeB records records.length s t))).Perm
      ((topRecords records).flatMap
        (fun t => records.filter (fun s => inSubtreeB records records.length s t))) :=
    filter_any_perm records _ (topRecords records) htopdisj
  have hstep4 : records.filter (fun s => (topRecords records).any
      (fun t => inSubtreeB records records.length s t)) = records := by
    rw [List.filter_eq_self]
    intro s hs
    obtain ⟨k, hk, t, hkt, htn⟩ := rootedB_terminal records.length s (hacyc s hs)
    have htmem : t ∈ records := by
      rcases Nat.eq_zero_or_pos k with rfl | hk1
      · have : s = t := by simpa [parentIter] using hkt
        exact this ▸ hs
      · exact parentIter_mem hk1 hkt
    have htop : t ∈ topRecords records := mem_topRecords.2 ⟨htmem, htn⟩
    rw [List.any_eq_true]
    exact ⟨t, htop, inSubtreeB_mono hk (parentIter_inSubtreeB k s t hkt hs)⟩
  exact hstep2.trans (hstep3.symm.trans (by rw [hstep4]))

theorem record_buildNode (records : List WorkspaceRecord) (fuel : Nat)
    (r : WorkspaceRecord) : (buildNode records fuel r).record = r := by
  cases fuel <;> rfl

theorem buildNode_nodeSorted (records : List WorkspaceRecord) :
    ∀ (fuel : Nat) (r : WorkspaceRecord), nodeSorted (buildNode records fuel r) := by
  intro fuel
  induction fuel with
  | zero =>
    intro r
    show nodeSorted (.node r [])
    rw [nodeSorted_node]
    simp
  | succ fuel ih =>
    intro r
    show nodeSorted (.node r ((childRecords records r.id).map (buildNode records fuel)))
    rw [nodeSorted_node]
    constructor
    · rw [List.map_map]
      have hcomp : (WorkspaceNode.record ∘ buildNode records fuel) = id := by
        funext c
        exact record_buildNode records fuel c
      rw [hcomp, List.map_id]
      exact List.sorted_mergeSort recordLE_trans recordLE_total _
    · intro c hc
      obtain ⟨cr, _, rfl⟩ := List.mem_map.1 hc
      exact ih cr

theorem build_treeSorted (records : List WorkspaceRecord) :
    treeSorted ⟨syntheticRootLabel,
      (topRecords records).map (buildNode records records.length)⟩ := by
  constructor
  · show (((topRecords records).map (buildNode records records.length)).map
      WorkspaceNode.record).Pairwise _
    rw [List.map_map]
    have hcomp : (WorkspaceNode.record ∘ buildNode records records.length) = id := by
      funext c
      exact record_buildNode records records.length c
    rw [hcomp, List.map_id]
    exact List.sorted_mergeSort recordLE_trans recordLE_total _
  · intro c hc
    obtain ⟨cr, _, rfl⟩ := List.mem_map.1 hc
    exact buildNode_nodeSorted records records.length cr

theorem isOrphan_parentOf {records : List WorkspaceRecord} {r : WorkspaceRecord}
    (h : isOrphan records r = true) : parentOf records r = none := by
  unfold isOrphan at h
  unfold parentOf
  cases hp : r.parentId with
  | none => rfl
  | some p =>
    rw [hp] at h
    simpa [Option.isNone_iff_eq_none] using h

theorem self_mem_flattenNode_buildNode (records : List WorkspaceRecord) (n : Nat)
    (r : WorkspaceRecord) : r ∈ flattenNode (buildNode records n r) := by
  cases n with
  | zero =>
    rw [show buildNode records 0 r = .node r [] from rfl, flattenNode_node]
    exact List.mem_cons_self _ _
  | succ n =>
    rw [flattenNode_buildNode_succ]
    exact List.mem_cons_self _ _

theorem stepSelector_inv (s : SelectorState) (e : SelectorEvent)
    (h : selectionInv s) : selectionInv (stepSelector s e) := by
  cases e with
  | select i =>
    intro j hj
    simp only [stepSelector] at hj ⊢
    unfold select at hj
    by_cases hmem : i ∈ treeIds s.tree
    · rw [if_pos hmem] at hj
      cases hj
      exact hmem
    · rw [if_neg hmem] at hj
      exact h j hj
  | clearSelection =>
    intro j hj
    simp [stepSelector, clearSelection] at hj
  | toggleExpand i =>
    intro j hj
    simp only [stepSelector] at hj ⊢
    unfold toggleExpand at hj
    exact h j hj
  | treeRebuilt t =>
    intro j hj
    simp only [stepSelector] at hj ⊢
    unfold onTreeRebuilt at hj
    simp only at hj
    cases hsel : s.selection.selectedId with
    | none =>
      rw [hsel] at hj
      exact absurd hj (by simp)
    | some i =>
      rw [hsel] at hj
      have hj' : (if i ∈ treeIds t then some i else none) = some j := hj
      by_cases hmem : i ∈ treeIds t
      · rw [if_pos hmem] at hj'
        cases hj'
        exact hmem
      · rw [if_neg hmem] at hj'
        cases hj'

theorem runSelector_inv (es : List SelectorEvent) :
    ∀ s : SelectorState, selectionInv s → selectionInv (runSelector s es) := by
  induction es with
  | nil => intro s h; exact h
  | cons e es ih =>
    intro s h
    exact ih (stepSelector s e) (stepSelector_inv s e h)

/-! ### Claim theorems -/

/-- C1: for every well-formed record list (unique ids, every non-null
parentId resolves to an id present in the list, no cycles), `build` returns
a single-rooted tree (one `WorkspaceTree` value) whose nodes carry exactly
the input records, each appearing exactly once (a permutation of the input),
and in which every node's children sequence — the synthetic root's
included — is sorted by name with ties broken by id. -/
theorem c1_build_wellFormed_tree (records : List WorkspaceRecord)
    (hwf : wellFormed records) :
    ∃ t : WorkspaceTree, build records = .ok t ∧
      (flattenForest t.children).Perm records ∧ treeSorted t := by
  obtain ⟨hnd, _hres, hacycB⟩ := hwf
  refine ⟨⟨syntheticRootLabel,
    (topRecords records).map (buildNode records records.length)⟩, ?_, ?_, ?_⟩
  · unfold build
    rw [if_pos hacycB]
  · exact flattenForest_build_perm hnd hacycB
  · exact build_treeSorted records

/-- C1 witness: the spec's end-to-end example (a root and one child) is
well-formed and `build` produces the promised tree. -/
theorem c1_witness :
    wellFormed exampleRecords ∧
      ∃ t : WorkspaceTree, build exampleRecords = .ok t ∧
        (flattenForest t.children).Perm exampleRecords ∧ treeSorted t :=
  ⟨⟨by decide, by decide, by decide⟩,
    c1_build_wellFormed_tree exampleRecords ⟨by decide, by decide, by decide⟩⟩

/-- C2: whenever the cycle check passes (in particular for every acyclic
list containing orphans), `build` succeeds and every record whose parentId
does not resolve is attached as a direct child of the synthetic root — the
root distinctly labeled — and is hence present in the resulting tree. -/
theorem c2_orphans_under_synthetic_root (records : List WorkspaceRecord)
    (hacycB : acyclicB records = true) (r : WorkspaceRecord) (hr : r ∈ records)
    (horph : isOrphan records r = true) :
    ∃ t : WorkspaceTree, build records = .ok t ∧ t.rootLabel = syntheticRootLabel ∧
      r ∈ t.children.map WorkspaceNode.record ∧ r ∈ flattenForest t.children := by
  refine ⟨⟨syntheticRootLabel,
    (topRecords records).map (buildNode records records.length)⟩, ?_, rfl, ?_, ?_⟩
  · unfold build
    rw [if_pos hacycB]
  · show r ∈ ((topRecords records).map (buildNode records records.length)).map
      WorkspaceNode.record
    rw [List.map_map]
    have hcomp : (WorkspaceNode.record ∘ buildNode records records.length) = id := by
      funext c
      exact record_buildNode records records.length c
    rw [hcomp, List.map_id]
    exact mem_topRecords.2 ⟨hr, isOrphan_parentOf horph⟩
  · show r ∈ flattenForest ((topRecords records).map (buildNode records records.length))
    unfold flattenForest
    rw [List.flatMap_map]
    rw [List.mem_flatMap]
    exact ⟨r, mem_topRecords.2 ⟨hr, isOrphan_parentOf horph⟩,
      self_mem_flattenNode_buildNode records records.length r⟩

/-- C2 witness: the spec's orphan example — `{id:"3", parent_id:"missing"}`
next to a normal root — ends up as a direct child of the synthetic root. -/
theorem c2_witness :
    acyclicB exampleOrphanRecords = true ∧
      isOrphan exampleOrphanRecords ⟨"3", "Orphan", some "missing"⟩ = true ∧
      ∃ t : WorkspaceTree, build exampleOrphanRecords = .ok t ∧
        t.rootLabel = syntheticRootLabel ∧
        (⟨"3", "Orphan", some "missing"⟩ : WorkspaceRecord) ∈
          t.children.map WorkspaceNode.record ∧
        (⟨"3", "Orphan", some "missing"⟩ : WorkspaceRecord) ∈ flattenForest t.children :=
  ⟨by decide, by decide,
    c2_orphans_under_synthetic_root exampleOrphanRecords (by decide)
      ⟨"3", "Orphan", some "missing"⟩ (by decide) (by decide)⟩

/-- C3: for every record list containing a parent-reference cycle, `build`
(a total function, hence terminating) reports a `DataIntegrityError`
instead of producing a tree. -/
theorem c3_cycle_reported (records : List WorkspaceRecord) (hc : hasCycle records) :
    build records = .error .dataIntegrityError := by
  obtain ⟨r, hr, k, hk, hcyc⟩ := hc
  have hnot : ¬(acyclicB records = true) := by
    intro hacycB
    exact rootedB_no_cycle records.length r k
      (List.all_eq_true.1 hacycB r hr) hk hcyc
  unfold build
  rw [if_neg hnot]

/-- C3 witness: the spec's cyclic two-record example
`{id:"a",parent_id:"b"}, {id:"b",parent_id:"a"}` is reported as a
`DataIntegrityError`. -/
theorem c3_witness :
    hasCycle exampleCycleRecords ∧
      build exampleCycleRecords = .error .dataIntegrityError :=
  ⟨⟨⟨"a", "a", some "b"⟩, by decide, 2, by omega, by decide⟩,
    c3_cycle_reported exampleCycleRecords
      ⟨⟨"a", "a", some "b"⟩, by decide, 2, by omega, by decide⟩⟩

/-- C4: issuing fetch A and then fetch B before A resolves, with A's
response arriving after B's, leaves the state exactly as after B's response
(the stale response from A has no effect) and the displayed data is B's. -/
theorem c4_last_request_wins (s₀ : FetchState) (dataA dataB : List WorkspaceRecord) :
    receiveResponse
        (receiveResponse (issueFetch (issueFetch s₀).1).1 (issueFetch (issueFetch s₀).1).2 dataB)
        (issueFetch s₀).2 dataA =
      receiveResponse (issueFetch (issueFetch s₀).1).1 (issueFetch (issueFetch s₀).1).2 dataB ∧
    (receiveResponse
        (receiveResponse (issueFetch (issueFetch s₀).1).1 (issueFetch (issueFetch s₀).1).2 dataB)
        (issueFetch s₀).2 dataA).displayed = some dataB := by
  constructor <;> simp [issueFetch, receiveResponse]

/-- C5: in every reachable selector state the selected id, when non-null,
is present in the current tree; `onTreeRebuilt` transitions to no-selection
whenever the selected id is missing from the new tree (in particular
immediately after a successful `select`), and filters the expanded ids to
the ids still present. -/
theorem c5_selection_state_invariant :
    (∀ (t : WorkspaceTree) (es : List SelectorEvent),
        selectionInv (runSelector (initSelector t) es)) ∧
    (∀ (st : SelectionState) (nt : WorkspaceTree) (i : String),
        st.selectedId = some i → i ∉ treeIds nt →
        (onTreeRebuilt st nt).selectedId = none) ∧
    (∀ (tree nt : WorkspaceTree) (st : SelectionState) (i : String),
        i ∈ treeIds tree → i ∉ treeIds nt →
        (onTreeRebuilt (select tree st i) nt).selectedId = none) ∧
    (∀ (st : SelectionState) (nt : WorkspaceTree) (j : String),
        j ∈ (onTreeRebuilt st nt).expandedIds ↔
          j ∈ st.expandedIds ∧ j ∈ treeIds nt) := by
  have hreb : ∀ (st : SelectionState) (nt : WorkspaceTree) (i : String),
      st.selectedId = some i → i ∉ treeIds nt →
      (onTreeRebuilt st nt).selectedId = none := by
    intro st nt i hsel hmem
    unfold onTreeRebuilt
    simp only
    rw [hsel]
    show (if i ∈ treeIds nt then some i else none) = none
    rw [if_neg hmem]
  refine ⟨?_, hreb, ?_, ?_⟩
  · intro t es
    apply runSelector_inv
    intro j hj
    cases hj
  · intro tree nt st i hin hout
    apply hreb _ _ i _ hout
    unfold select
    rw [if_pos hin]
  · intro st nt j
    unfold onTreeRebuilt
    simp only
    rw [Finset.mem_filter]

/-- C5 witness: on the concrete one-node tree, selecting "1" and rebuilding
with a tree lacking "1" clears the selection, and the reachable-state
invariant holds for that event sequence. -/
theorem c5_witness :
    selectionInv (runSelector (initSelector exampleTree)
        [SelectorEvent.select "1", SelectorEvent.treeRebuilt exampleTreeNoOne]) ∧
    (("1" : String) ∈ treeIds exampleTree ∧ ("1" : String) ∉ treeIds exampleTreeNoOne ∧
      (onTreeRebuilt (select exampleTree emptySelection "1") exampleTreeNoOne).selectedId = none) := by
  have hin : ("1" : String) ∈ treeIds exampleTree := by
    simp [treeIds, flattenForest, exampleTree, flattenNode_node]
  have hout : ("1" : String) ∉ treeIds exampleTreeNoOne := by
    simp [treeIds, flattenForest, exampleTreeNoOne, flattenNode_node]
  exact ⟨c5_selection_state_invariant.1 exampleTree _,
    hin, hout,
    c5_selection_state_invariant.2.2.1 exampleTree exampleTreeNoOne emptySelection "1" hin hout⟩

/-- C6: `select` with an id absent from the tree is a consistent no-op and
never sets the selection to a different node; `select` with a present id
sets the selection to exactly that id. -/
theorem c6_select_semantics (tree : WorkspaceTree) (st : SelectionState) (i : String) :
    (i ∉ treeIds tree → select tree st i = st) ∧
    (i ∈ treeIds tree → (select tree st i).selectedId = some i) ∧
    ((select tree st i).selectedId = st.selectedId ∨
      (select tree st i).selectedId = some i) := by
  refine ⟨fun h => ?_, fun h => ?_, ?_⟩
  · unfold select
    rw [if_neg h]
  · unfold select
    rw [if_pos h]
  · by_cases h : i ∈ treeIds tree
    · refine Or.inr ?_
      unfold select
      rw [if_pos h]
    · refine Or.inl ?_
      unfold select
      rw [if_neg h]

/-- C6 witness: on the concrete one-node tree, selecting the unknown id "2"
is a no-op and selecting the present id "1" selects exactly "1". -/
theorem c6_witness :
    (("2" : String) ∉ treeIds exampleTree ∧
      select exampleTree emptySelection "2" = emptySelection) ∧
    (("1" : String) ∈ treeIds exampleTree ∧
      (select exampleTree emptySelection "1").selectedId = some "1") := by
  have h2 : ("2" : String) ∉ treeIds exampleTree := by
    simp [treeIds, flattenForest, exampleTree, flattenNode_node]
  have h1 : ("1" : String) ∈ treeIds exampleTree := by
    simp [treeIds, flattenForest, exampleTree, flattenNode_node]
  exact ⟨⟨h2, (c6_select_semantics exampleTree emptySelection "2").1 h2⟩,
    ⟨h1, (c6_select_semantics exampleTree emptySelection "1").2.1 h1⟩⟩

/-- C7 counterexample: applying `toggleExpand "a"` twice from the empty
state yields expanded ids different from applying it once — double
application is not idempotent, it restores the original state instead. -/
theorem c7_counterexample :
    (toggleExpand (toggleExpand emptySelection "a") "a").expandedIds ≠
      (toggleExpand emptySelection "a").expandedIds := by
  decide

/-- C7 (amended): `toggleExpand` under double application restores the
original state (expand, collapse → back to the original); a single
application flips membership of the id in the expanded ids, leaves every
other id's membership unchanged, and does not affect the selected id. -/
theorem c7_toggleExpand_involutive (st : SelectionState) (i : String) :
    toggleExpand (toggleExpand st i) i = st ∧
    (toggleExpand st i).selectedId = st.selectedId ∧
    (i ∈ (toggleExpand st i).expandedIds ↔ i ∉ st.expandedIds) ∧
    (∀ j, j ≠ i → (j ∈ (toggleExpand st i).expandedIds ↔ j ∈ st.expandedIds)) := by
  refine ⟨?_, rfl, ?_, ?_⟩
  · unfold toggleExpand
    by_cases h : i ∈ st.expandedIds
    · rw [if_pos h]
      simp only
      rw [if_neg (Finset.not_mem_erase i st.expandedIds), Finset.insert_erase h]
    · rw [if_neg h]
      simp only
      rw [if_pos (Finset.mem_insert_self i _), Finset.erase_insert h]
  · unfold toggleExpand
    by_cases h : i ∈ st.expandedIds
    · rw [if_pos h]
      simp [Finset.not_mem_erase, h]
    · rw [if_neg h]
      simp [Finset.mem_insert_self, h]
  · intro j hj
    unfold toggleExpand
    by_cases h : i ∈ st.expandedIds
    · rw [if_pos h]
      simp [Finset.mem_erase, hj]
    · rw [if_neg h]
      simp [Finset.mem_insert, hj]

/-- C7 witness: the amended statement evaluated at the empty state with ids
"a" and "b". -/
theorem c7_witness :
    toggleExpand (toggleExpand emptySelection "a") "a" = emptySelection ∧
    (("b" : String) ≠ "a") ∧
    (("b" : String) ∈ (toggleExpand emptySelection "a").expandedIds ↔
      ("b" : String) ∈ emptySelection.expandedIds) :=
  ⟨(c7_toggleExpand_involutive emptySelection "a").1, by decide,
    (c7_toggleExpand_involutive emptySelection "a").2.2.2 "b" (by decide)⟩

/-- C8: in the production non-beta environment, `usePreviewFlag` returns
false regardless of the feature-flag service's value: two runs that differ
only in the underlying flag values produce the same result, false. -/
theorem c8_usePreviewFlag_prod_nonbeta_constant
    (flags₁ flags₂ : String → Bool) (flag : String) :
    usePreviewFlag "prod" false flags₁ flag = false ∧
    usePreviewFlag "prod" false flags₁ flag = usePreviewFlag "prod" false flags₂ flag :=
  ⟨rfl, rfl⟩

/-- C9: `groupNameValidated` returns "error" exactly when the name is
undefined, or the pending error is truthy, or the name is strictly longer
than 150 characters; a defined name of length at most 150 (hence exactly
150) with no pending error yields "default". -/
theorem c9_groupNameValidated_spec :
    (∀ groupName groupNameError : Option String,
      groupNameValidated groupName groupNameError = "error" ↔
        (groupName = none ∨ truthyStr groupNameError = true ∨
          ∃ s, groupName = some s ∧ 150 < s.length)) ∧
    (∀ (s : String) (e : Option String), truthyStr e = false → s.length ≤ 150 →
      groupNameValidated (some s) e = "default") := by
  constructor
  · intro n e
    cases n with
    | none =>
      constructor
      · intro _
        exact Or.inl rfl
      · intro _
        rfl
    | some s =>
      by_cases he : truthyStr e = true
      · constructor
        · intro _
          exact Or.inr (Or.inl he)
        · intro _
          unfold groupNameValidated
          rw [he]
          simp
      · have he' : truthyStr e = false := by
          cases hv : truthyStr e
          · rfl
          · exact absurd hv he
        by_cases hl : 150 < s.length
        · constructor
          · intro _
            exact Or.inr (Or.inr ⟨s, rfl, hl⟩)
          · intro _
            unfold groupNameValidated
            have hl' : optLenGt150 (some s) = true := by
              simp [optLenGt150, hl]
            rw [hl']
            simp only [Bool.or_true]
            rfl
        · constructor
          · intro h
            exfalso
            unfold groupNameValidated at h
            have hl' : optLenGt150 (some s) = false := by
              simp [optLenGt150, hl]
            rw [he', hl'] at h
            simp at h
          · rintro (hc | hc | ⟨s', hs', hc⟩)
            · cases hc
            · exact absurd hc he
            · cases hs'
              exact absurd hc hl
  · intro s e hte hle
    unfold groupNameValidated
    have hl' : optLenGt150 (some s) = false := by
      simp only [optLenGt150, decide_eq_false_iff_not, not_lt]
      exact hle
    rw [hte, hl']
    simp

/-- C9 witness: a defined 150-character name with no pending error
validates as "default". -/
theorem c9_witness :
    truthyStr none = false ∧
      (String.mk (List.replicate 150 'a')).length ≤ 150 ∧
      groupNameValidated (some (String.mk (List.replicate 150 'a'))) none = "default" :=
  ⟨rfl, by simp [String.length],
    c9_groupNameValidated_spec.2 (String.mk (List.replicate 150 'a')) none rfl
      (by simp [String.length])⟩

/-- C10: `groupDescriptionValidated` returns "error" exactly when the
description is defined and strictly longer than 150 characters; an
undefined description and the empty description both yield "default". -/
theorem c10_groupDescriptionValidated_spec :
    (∀ d : Option String, groupDescriptionValidated d = "error" ↔
      ∃ s, d = some s ∧ 150 < s.length) ∧
    groupDescriptionValidated none = "default" ∧
    groupDescriptionValidated (some "") = "default" := by
  refine ⟨?_, rfl, rfl⟩
  intro d
  cases d with
  | none =>
    constructor
    · intro h
      exact absurd h (by decide)
    · rintro ⟨s, hs, _⟩
      cases hs
  | some s =>
    by_cases hl : 150 < s.length
    · constructor
      · intro _
        exact ⟨s, rfl, hl⟩
      · intro _
        unfold groupDescriptionValidated
        have hl' : optLenGt150 (some s) = true := by
          simp [optLenGt150, hl]
        rw [hl']
        rfl
    · constructor
      · intro h
        exfalso
        unfold groupDescriptionValidated at h
        have hl' : optLenGt150 (some s) = false := by
          simp [optLenGt150, hl]
        rw [hl'] at h
        exact absurd h (by decide)
      · rintro ⟨s', hs', hc⟩
        cases hs'
        exact absurd hc hl

end Rbac
